import Mathlib

/-!
Verification of the pastas transfer-function-noise (TFN) simulation and
calibration core against its natural-language specification.

The repository ships only documentation notebooks; the engine itself
(composite model, response functions, recharge transform, noise transform,
calibration engine) is not present in the sources.  Each definition below is
therefore modelled from the specification text, as indicated by its doc
comment, and the claims are settled against these models.

Conventions: timestamps are integers (days), series values are rationals
where the arithmetic is exact, and reals where exponentials are involved.
-/

namespace Pastas

/-- Modelled from the spec (4.2): discrete convolution of a driving series
with a block response.  The contribution at time `t` is the sum over lags
`j` of `block[j] * stress (t - j)`; the block response has finite length, the
cutoff-determined horizon. -/
def convolve (stress : Int → ℚ) (block : List ℚ) (t : Int) : ℚ :=
  ∑ j ∈ Finset.range block.length, block.getD j 0 * stress (t - j)

/-- Modelled from the spec (3, 4.5): a stress contribution unit as seen by
the composite model, i.e. a producer of a contribution series aligned to the
simulation index, together with its response-cutoff horizon. -/
structure SCUnit where
  contrib : Int → ℚ
  cutoff : Nat

/-- Modelled from the spec (4.5): the warmup horizon of a composite model is
the maximum response cutoff over all its stress contribution units. -/
def maxCutoff (us : List SCUnit) : Nat :=
  us.foldr (fun u m => max u.cutoff m) 0

/-- The inclusive integer time axis from `t0` to `t1` (just `[t0]` when the
window is empty). -/
def timeAxis (t0 t1 : Int) : List Int :=
  (List.range ((t1 - t0).toNat + 1)).map (fun i => t0 + i)

/-- Modelled from the spec (4.5): the internal, extended simulation axis of
a composite model: it starts `maxCutoff` (one response-cutoff horizon)
before `tmin` and runs to `tmax`. -/
def simulateAxis (us : List SCUnit) (tmin tmax : Int) : List Int :=
  timeAxis (tmin - (maxCutoff us : Int)) tmax

/-- Modelled from the spec (4.5): `simulate(parameters, tmin, tmax)` returns
constant + Σ unit contributions, sliced to `[tmin, tmax]` but computed from
an internally extended window starting `max(cutoff)` before `tmin`.  The
parameter dependence is folded into the units' contribution functions. -/
def simulate (us : List SCUnit) (d : ℚ) (tmin tmax : Int) : List (Int × ℚ) :=
  ((simulateAxis us tmin tmax).map
      (fun t => (t, d + (us.map (fun u => u.contrib t)).sum))).filter
    (fun p => decide (tmin ≤ p.1) && decide (p.1 ≤ tmax))

/-- Clip a value into the interval `[lo, hi]`. -/
def clip (x lo hi : ℚ) : ℚ := max lo (min x hi)

/-- Modelled from the spec (4.3): the recharge transform state machine.
Starting from storage `s`, each step computes
`state[t] = clip (state[t-1] + inflow[t] - outflow state[t-1]) 0 cap`,
strictly in time order, and the full state trajectory is returned. -/
def rechargeStates (cap : ℚ) (outflow : ℚ → ℚ) : ℚ → List ℚ → List ℚ
  | _, [] => []
  | s, i :: is =>
      clip (s + i - outflow s) 0 cap :: rechargeStates cap outflow (clip (s + i - outflow s) 0 cap) is

/-- Helper recursion for the noise transform: given the previous residual
`prev`, the decay factor sequence `phi` and the remaining residuals, emit
`r - prev * phi k` for each residual in turn. -/
def innovStep {R : Type} [Ring R] (phi : Nat → R) : Nat → R → List R → List R
  | _, _, [] => []
  | k, prev, r :: rs => (r - prev * phi k) :: innovStep phi (k + 1) r rs

/-- Modelled from the spec (4.4): the innovation series of a residual list,
for an abstract per-step decay factor sequence `phi`.  The first innovation
equals the first residual (no prior state); innovation `k` (0-based, k ≥ 1)
is `residual[k] - residual[k-1] * phi k`. -/
def innovations {R : Type} [Ring R] (phi : Nat → R) : List R → List R
  | [] => []
  | r :: rs => r :: innovStep phi 1 r rs

/-- Modelled from the spec (4.4): the noise transform with decay time `α`
on an irregular time grid, where `dt k` is the real elapsed time between
observation `k-1` and observation `k`; the decay factor at step `k` is
`exp (-Δt_k / α)`. -/
noncomputable def noiseTransform (α : ℝ) (dt : Nat → ℝ) (r : List ℝ) : List ℝ :=
  innovations (fun k => Real.exp (-(dt k) / α)) r

/-- Modelled from the spec (4.4): the variance of innovation `k` under the
continuous-time AR(1) assumption is proportional to `1 - exp (-2Δt_k / α)`. -/
noncomputable def innovationVarianceFactor (α dt : ℝ) : ℝ :=
  1 - Real.exp (-(2 * dt) / α)

/-- Modelled from the spec (4.4): the weight applied to innovation `k` in
the least-squares objective, `1 / sqrt (1 - exp (-2Δt_k/α))`. -/
noncomputable def noiseWeight (α dt : ℝ) : ℝ :=
  1 / Real.sqrt (1 - Real.exp (-(2 * dt) / α))

/-- Modelled from the spec (4.6): the weighted least-squares objective over
the first `n` innovations: the sum of squared weighted innovations. -/
noncomputable def weightedObjective (α : ℝ) (dt ν : Nat → ℝ) (n : Nat) : ℝ :=
  ∑ k ∈ Finset.range n, (noiseWeight α (dt k) * ν k) ^ 2

/-- Modelled from the spec (3, 4.1): the single-exponential response family
in its exact discrete form.  The continuous step response `A (1 - exp(-t/a))`
sampled at integer lags `t = 1, 2, ...` is `A (1 - ρ^t)` with per-step decay
factor `ρ = exp (-1/a) ∈ (0,1)`; `ρ` is taken as the parameter so that the
arithmetic is exact. -/
def expStep (A ρ : ℚ) (t : Nat) : ℚ := A * (1 - ρ ^ t)

/-- Modelled from the spec (3): the asymptotic gain of the exponential
family is the parameter `A`. -/
def expGain (A : ℚ) : ℚ := A

/-- Modelled from the spec (3, 4.1, 9): the response-function contract
shared by every family of the closed set (single-exponential, gamma-shaped,
four-parameter, distance-scaled, unit/instantaneous): a step response
sampled at discrete lags, an asymptotic gain, the invariant that the step
response is monotonic toward the gain, and the existence of a cutoff
horizon at which the configured fraction (default 99.9%) of the gain is
reached. -/
structure ResponseFamily where
  step : Nat → ℚ
  gain : ℚ
  toward : ∀ s t : Nat, s ≤ t → |gain - step t| ≤ |gain - step s|
  reaches : ∃ L, |gain - step L| ≤ (1 - 999 / 1000) * |gain|

/-- Modelled from the spec (3): the cutoff rule of a response family: the
number of discrete lags needed for the step response to reach the
configured fraction (default 99.9%) of the asymptotic gain, i.e. the least
`L` with `|gain - step L| ≤ (1 - 0.999) · |gain|`. -/
def cutoffF (f : ResponseFamily) : Nat := Nat.find f.reaches

/-- Modelled from the spec (3, 4.1): the step response sequence of a
response family, of length `cutoff`, sampled at lags `1, ..., cutoff`. -/
def stepResponseF (f : ResponseFamily) : List ℚ :=
  (List.range (cutoffF f)).map (fun i => f.step (i + 1))

/-- The single-exponential family packaged as a response family: its step
response `A (1 - ρ^t)` is monotonic toward the gain `A` and reaches any
fraction of it, for `0 ≤ ρ ≤ 1` with a decay witness. -/
def expFamily (A ρ : ℚ) (hA : 0 ≤ A) (hρ0 : 0 ≤ ρ) (hρ1 : ρ ≤ 1)
    (h : ∃ n, ρ ^ n ≤ 1 / 1000) : ResponseFamily where
  step := expStep A ρ
  gain := expGain A
  toward := by
    intro s t hst
    unfold expStep expGain
    have hdist : ∀ u : Nat, A - A * (1 - ρ ^ u) = A * ρ ^ u := by
      intro u; ring
    rw [hdist s, hdist t, abs_of_nonneg (by positivity), abs_of_nonneg (by positivity)]
    exact mul_le_mul_of_nonneg_left (pow_le_pow_of_le_one hρ0 hρ1 hst) hA
  reaches := by
    obtain ⟨n, hn⟩ := h
    refine ⟨n, ?_⟩
    unfold expStep expGain
    have hdist : A - A * (1 - ρ ^ n) = A * ρ ^ n := by ring
    rw [hdist, abs_of_nonneg (by positivity), abs_of_nonneg hA]
    calc A * ρ ^ n ≤ A * (1 / 1000) :=
          mul_le_mul_of_nonneg_left hn hA
      _ = (1 - 999 / 1000) * A := by ring

/-- Modelled from the spec (4.1, §8 example): the gain of a distance-scaled
response family shared by several wells.  The distance `r` rescales the
response: a resistance-type term divides by `r`, so the asymptotic effect of
a well at distance `r` is `A / r`. -/
def gainAtDistance (A r : ℚ) : ℚ := A / r

/-- Modelled from the spec (4.2): the summed contribution of a multi-stress
(well) unit.  Each bound stress is convolved against the same response
family re-parameterized by its own distance (`rfBlock` maps a distance to
the block response), and the contributions are summed. -/
def wellContribution (rfBlock : ℚ → List ℚ) (wells : List ((Int → ℚ) × ℚ)) (t : Int) : ℚ :=
  (wells.map (fun w => convolve w.1 (rfBlock w.2) t)).sum

/-- Modelled from the spec (4.2): a single-stress contribution unit with a
sign convention: the driving series is sign-flipped when the effect is
decreasing (`up = false`) and convolved with the block response. -/
def contributionUp (up : Bool) (stress : Int → ℚ) (block : List ℚ) (t : Int) : ℚ :=
  convolve (fun s => (if up then (1 : ℚ) else -1) * stress s) block t

/-- Modelled from the spec (3): a calibration parameter: current value and
vary flag (name, bounds and errors are irrelevant to the claims below). -/
structure Param where
  value : ℚ
  vary : Bool
deriving DecidableEq, Repr

/-- Modelled from the spec (4.6): the optimization vector passed to the
minimizer: the values of the varying parameters only. -/
def optVector (ps : List Param) : List ℚ :=
  (ps.filter (fun p => p.vary)).map (fun p => p.value)

/-- Modelled from the spec (3, 4.6): assemble the full parameter vector used
by simulation from the parameter table and a candidate optimization vector:
varying slots take the next candidate entry, non-varying slots keep their
current value. -/
def assemble : List Param → List ℚ → List ℚ
  | [], _ => []
  | p :: ps, xs =>
      if p.vary then xs.headD p.value :: assemble ps xs.tail
      else p.value :: assemble ps xs

/-- Modelled from the spec (4.6): write the optimal vector back onto the
parameter table: varying parameters receive the next optimal entry,
non-varying parameters are left unchanged. -/
def writeBack : List Param → List ℚ → List Param
  | [], _ => []
  | p :: ps, xs =>
      if p.vary then { p with value := xs.headD p.value } :: writeBack ps xs.tail
      else p :: writeBack ps xs

/-- Modelled from the spec (4.6): a solve builds the optimization vector
from the varying parameters, hands it to the external minimizer, and writes
the returned optimal vector back onto the parameter table. -/
def solveModel (minimizer : List ℚ → List ℚ) (ps : List Param) : List Param :=
  writeBack ps (minimizer (optVector ps))

/-- Errors raised at construction/add time (spec §7: structural errors). -/
inductive StructuralError where
  | duplicateName
  | missingDistance
  | badIndex
deriving DecidableEq, Repr

/-- Boolean check that a time index is strictly increasing (monotonically
increasing and duplicate-free). -/
def strictlySorted : List Int → Bool
  | [] => true
  | [_] => true
  | a :: b :: rest => decide (a < b) && strictlySorted (b :: rest)

/-- Modelled from the spec (§6, §7): binding a series validates its time
index and fails fast on an unsorted or duplicate-containing index. -/
def bindSeries (idx : List Int) (vals : List ℚ) : Except StructuralError (List Int × List ℚ) :=
  if strictlySorted idx then Except.ok (idx, vals) else Except.error StructuralError.badIndex

/-- Modelled from the spec (§7): adding a stress contribution unit to the
composite model's name → unit mapping fails fast when the name duplicates an
existing unit's name. -/
def addUnit (m : List (String × SCUnit)) (name : String) (u : SCUnit) :
    Except StructuralError (List (String × SCUnit)) :=
  if name ∈ m.map Prod.fst then Except.error StructuralError.duplicateName
  else Except.ok (m ++ [(name, u)])

/-- Modelled from the spec (4.1, §7): constructing a multi-stress unit for a
distance-scaled response family fails fast when the required distances are
omitted. -/
def mkWellUnit (stresses : List (Int → ℚ)) (distances : Option (List ℚ)) :
    Except StructuralError (List ((Int → ℚ) × ℚ)) :=
  match distances with
  | none => Except.error StructuralError.missingDistance
  | some ds => Except.ok (stresses.zip ds)

/-- A clipped value lies inside `[0, cap]` whenever the capacity is
non-negative. -/
lemma clip_bounds (x cap : ℚ) (hcap : 0 ≤ cap) :
    0 ≤ clip x 0 cap ∧ clip x 0 cap ≤ cap := by
  unfold clip
  exact ⟨le_max_left 0 _, max_le hcap (min_le_right x cap)⟩

/-- The innovation helper preserves the length of the residual tail. -/
lemma innovStep_length {R : Type} [Ring R] (phi : Nat → R) :
    ∀ (rs : List R) (k : Nat) (prev : R), (innovStep phi k prev rs).length = rs.length := by
  intro rs
  induction rs with
  | nil => intro k prev; rfl
  | cons r rs ih => intro k prev; simp [innovStep, ih]

/-- Element `j` of the innovation helper follows the AR(1) recurrence with
respect to the previous residual. -/
lemma innovStep_getD {R : Type} [Ring R] (phi : Nat → R) :
    ∀ (rs : List R) (k : Nat) (prev : R) (j : Nat), j < rs.length →
      (innovStep phi k prev rs).getD j 0
        = rs.getD j 0 - (if j = 0 then prev else rs.getD (j - 1) 0) * phi (k + j) := by
  intro rs
  induction rs with
  | nil => intro k prev j hj; simp at hj
  | cons r rs ih =>
    intro k prev j hj
    match j with
    | 0 => simp [innovStep]
    | j + 1 =>
      have hj2 : j < rs.length := by simpa using hj
      have harg : k + 1 + j = k + (j + 1) := by omega
      simp only [innovStep, List.getD_cons_succ]
      rw [ih (k + 1) r j hj2, harg]
      match j with
      | 0 => simp
      | j + 1 => simp

/-- Element `i` of the assembled full parameter vector equals the current
value of parameter `i` whenever that parameter does not vary, independently
of the candidate optimization vector. -/
lemma assemble_getElem_fixed :
    ∀ (ps : List Param) (xs : List ℚ) (i : Nat) (p : Param),
      ps[i]? = some p → p.vary = false → (assemble ps xs)[i]? = some p.value := by
  intro ps
  induction ps with
  | nil => intro xs i p hp _; simp at hp
  | cons q ps ih =>
    intro xs i p hp hv
    match i with
    | 0 =>
      simp only [List.getElem?_cons_zero, Option.some.injEq] at hp
      subst hp
      simp [assemble, hv]
    | i + 1 =>
      simp only [List.getElem?_cons_succ] at hp
      by_cases hq : q.vary <;> simp [assemble, hq, ih _ i p hp hv]

/-- Writing back an optimal vector leaves a non-varying parameter entirely
unchanged, independently of the optimal vector. -/
lemma writeBack_getElem_fixed :
    ∀ (ps : List Param) (xs : List ℚ) (i : Nat) (p : Param),
      ps[i]? = some p → p.vary = false → (writeBack ps xs)[i]? = some p := by
  intro ps
  induction ps with
  | nil => intro xs i p hp _; simp at hp
  | cons q ps ih =>
    intro xs i p hp hv
    match i with
    | 0 =>
      simp only [List.getElem?_cons_zero, Option.some.injEq] at hp
      subst hp
      simp [writeBack, hv]
    | i + 1 =>
      simp only [List.getElem?_cons_succ] at hp
      by_cases hq : q.vary <;> simp [writeBack, hq, ih _ i p hp hv]

/-- Every entry of the optimization vector is the value of some varying
parameter: non-varying parameters are excluded. -/
lemma optVector_mem (ps : List Param) :
    ∀ v ∈ optVector ps, ∃ q ∈ ps, q.vary = true ∧ q.value = v := by
  intro v hv
  unfold optVector at hv
  obtain ⟨q, hq, rfl⟩ := List.mem_map.mp hv
  obtain ⟨hq1, hq2⟩ := List.mem_filter.mp hq
  exact ⟨q, hq1, hq2, rfl⟩

/-- The boolean index check agrees with the chain characterization of a
strictly increasing list. -/
lemma strictlySorted_iff_chain :
    ∀ l : List Int, strictlySorted l = true ↔ l.Chain' (· < ·) := by
  intro l
  induction l with
  | nil => simp [strictlySorted]
  | cons a l ih =>
    cases l with
    | nil => simp [strictlySorted]
    | cons b rest =>
      rw [strictlySorted, Bool.and_eq_true, decide_eq_true_iff, ih, List.chain'_cons]

/-- The boolean index check agrees with the sortedness predicate: it accepts
exactly the monotonically increasing, duplicate-free indices. -/
lemma strictlySorted_iff_sorted (l : List Int) :
    strictlySorted l = true ↔ l.Sorted (· < ·) := by
  rw [strictlySorted_iff_chain, List.chain'_iff_pairwise]
  exact Iff.rfl

/-- The extended time axis always starts at its declared first timestamp. -/
lemma timeAxis_head (t0 t1 : Int) : (timeAxis t0 t1).head? = some t0 := by
  unfold timeAxis
  rw [List.range_succ_eq_map]
  simp

/-- Recharge trajectories stay in `[0, cap]` from any start, because every
step clips. -/
lemma rechargeStates_mem_bounds (cap : ℚ) (outflow : ℚ → ℚ) (hcap : 0 ≤ cap) :
    ∀ (inflows : List ℚ) (s0 : ℚ), ∀ s ∈ rechargeStates cap outflow s0 inflows,
      0 ≤ s ∧ s ≤ cap := by
  intro inflows
  induction inflows with
  | nil => intro s0 s hs; simp [rechargeStates] at hs
  | cons i is ih =>
    intro s0 s hs
    simp only [rechargeStates, List.mem_cons] at hs
    rcases hs with rfl | hs
    · exact clip_bounds _ _ hcap
    · exact ih _ s hs

/-- C1.  `Model.simulate(parameters, tmin, tmax)` returns, at every
timestamp of the returned series, exactly the constant term plus the sum
over all stress contribution units of that unit's contribution at that
timestamp; the returned timestamps all lie in `[tmin, tmax]`, and the
internal time axis over which the series is computed is extended to start
`max(cutoff)` (one response-cutoff horizon) before `tmin`. -/
theorem simulate_constant_plus_contributions (us : List SCUnit) (d : ℚ) (tmin tmax : Int) :
    (∀ p ∈ simulate us d tmin tmax,
        tmin ≤ p.1 ∧ p.1 ≤ tmax ∧ p.2 = d + (us.map (fun u => u.contrib p.1)).sum) ∧
    (simulateAxis us tmin tmax).head? = some (tmin - (maxCutoff us : Int)) := by
  constructor
  · intro p hp
    obtain ⟨hmem, hcond⟩ := List.mem_filter.mp hp
    obtain ⟨t, ht, rfl⟩ := List.mem_map.mp hmem
    simp only [Bool.and_eq_true, decide_eq_true_eq] at hcond
    exact ⟨hcond.1, hcond.2, rfl⟩
  · exact timeAxis_head _ _

/-- C2.  For every residual series on an irregular time index with elapsed
times `Δt_k` and every decay parameter `α > 0`, the noise transform returns
an innovation series of the same length whose first element equals the
first residual and whose `k`-th element (`k ≥ 1`, 0-based) equals
`r[k] - r[k-1] · exp(-Δt_k/α)`. -/
theorem noise_transform_formula (α : ℝ) (dt : Nat → ℝ) (r : List ℝ) (hα : 0 < α) :
    (noiseTransform α dt r).length = r.length ∧
    (∀ x, r.head? = some x → (noiseTransform α dt r).head? = some x) ∧
    (∀ k, 1 ≤ k → k < r.length →
      (noiseTransform α dt r).getD k 0
        = r.getD k 0 - r.getD (k - 1) 0 * Real.exp (-(dt k) / α)) := by
  unfold noiseTransform
  refine ⟨?_, ?_, ?_⟩
  · cases r with
    | nil => rfl
    | cons a rs => simp [innovations, innovStep_length]
  · intro x hx
    cases r with
    | nil => simp at hx
    | cons a rs =>
      simp only [List.head?_cons, Option.some.injEq] at hx
      simp [innovations, hx]
  · intro k h1 h2
    cases r with
    | nil => simp at h2
    | cons a rs =>
      obtain ⟨k, rfl⟩ : ∃ k2, k = k2 + 1 := ⟨k - 1, by omega⟩
      have hk2 : k < rs.length := by
        simpa using h2
      simp only [innovations, List.getD_cons_succ]
      rw [innovStep_getD _ rs 1 a k hk2]
      have harg : 1 + k = k + 1 := by omega
      rw [harg]
      match k with
      | 0 => simp
      | k + 1 => simp

/-- C3.  For every finite, non-negative inflow sequence, every outflow rule,
and every initial storage in `[0, capacity]`, the internal storage state of
the recharge transform remains within `[0, capacity]` after every time step
of the clipped recurrence. -/
theorem recharge_state_bounded (cap : ℚ) (outflow : ℚ → ℚ) (s0 : ℚ) (inflows : List ℚ)
    (hcap : 0 ≤ cap) (hs0 : 0 ≤ s0) (hs0c : s0 ≤ cap) (hin : ∀ i ∈ inflows, 0 ≤ i) :
    ∀ s ∈ rechargeStates cap outflow s0 inflows, 0 ≤ s ∧ s ≤ cap := by
  intro s hs
  exact rechargeStates_mem_bounds cap outflow hcap inflows s0 s hs

/-- C4.  For every response family (any instance of the shared contract,
hence any family at any parameter vector) whose cutoff horizon is not
degenerate, the step response has length exactly `cutoff(p)` — the least
number of lags at which the configured fraction (default 99.9%) of the
asymptotic gain is reached, no earlier lag reaching it — and its last
element approximates `gain(p)` within the cutoff tolerance:
`|step_response(p)[L-1] - gain(p)| ≤ (1 - 0.999) · |gain(p)|`. -/
theorem step_response_gain_consistency (f : ResponseFamily) (hL : 0 < cutoffF f) :
    (stepResponseF f).length = cutoffF f ∧
    (∀ j, j < cutoffF f → ¬ (|f.gain - f.step j| ≤ (1 - 999 / 1000) * |f.gain|)) ∧
    |(stepResponseF f).getD (cutoffF f - 1) 0 - f.gain|
      ≤ (1 - 999 / 1000) * |f.gain| := by
  refine ⟨by simp [stepResponseF], fun j hj => Nat.find_min f.reaches hj, ?_⟩
  have hidx : cutoffF f - 1 < cutoffF f := Nat.sub_lt hL one_pos
  have hget : (stepResponseF f).getD (cutoffF f - 1) 0 = f.step (cutoffF f) := by
    unfold stepResponseF
    rw [List.getD_eq_getElem?_getD, List.getElem?_map, List.getElem?_range hidx]
    simp only [Option.map_some', Option.getD_some]
    congr 1
    omega
  rw [hget, abs_sub_comm]
  exact Nat.find_spec f.reaches

/-- C5.  For every innovation index `k` with positive elapsed time `Δt_k`
and every decay parameter `α > 0`, the weight applied to innovation `k` in
the least-squares objective equals `1 / sqrt (1 - exp (-2Δt_k/α))`, and the
squared weight cancels the AR(1) variance factor exactly, so each weighted
innovation has unit variance under the continuous-time AR(1) assumption. -/
theorem noise_weight_unit_variance (α : ℝ) (dt : Nat → ℝ) (ν : Nat → ℝ) (n k : Nat)
    (hα : 0 < α) (hdt : 0 < dt k) :
    weightedObjective α dt ν n = ∑ j ∈ Finset.range n, (noiseWeight α (dt j) * ν j) ^ 2 ∧
    noiseWeight α (dt k) = 1 / Real.sqrt (1 - Real.exp (-(2 * dt k) / α)) ∧
    noiseWeight α (dt k) ^ 2 * innovationVarianceFactor α (dt k) = 1 := by
  have hneg : -(2 * dt k) / α < 0 :=
    div_neg_of_neg_of_pos (by linarith) hα
  have hexp : Real.exp (-(2 * dt k) / α) < 1 := by
    rw [← Real.exp_zero]
    exact Real.exp_lt_exp.mpr hneg
  have hs : 0 < 1 - Real.exp (-(2 * dt k) / α) := by linarith
  refine ⟨rfl, rfl, ?_⟩
  unfold noiseWeight innovationVarianceFactor
  rw [div_pow, one_pow, Real.sq_sqrt hs.le, one_div, inv_mul_cancel₀ hs.ne']

/-- C6.  Permuting the bound stresses of a multi-stress (well) unit — in
particular reordering them closest-first by distance — leaves the summed
contribution series unchanged at every timestamp. -/
theorem well_contribution_perm_invariant (rfBlock : ℚ → List ℚ)
    (ws ws2 : List ((Int → ℚ) × ℚ)) (t : Int) (h : ws.Perm ws2) :
    wellContribution rfBlock ws t = wellContribution rfBlock ws2 t ∧
    wellContribution rfBlock (List.insertionSort (fun a b => a.2 ≤ b.2) ws) t
      = wellContribution rfBlock ws t := by
  have key : ∀ l1 l2 : List ((Int → ℚ) × ℚ), l1.Perm l2 →
      wellContribution rfBlock l1 t = wellContribution rfBlock l2 t := by
    intro l1 l2 hp
    unfold wellContribution
    exact (hp.map _).sum_eq
  exact ⟨key _ _ h, key _ _ (List.perm_insertionSort _ ws)⟩

/-- C7.  For every valid parameter vector of the distance-scaled response
family and any two distances `r1 < r2`, the gain at the larger distance is
strictly lower: `gain(p, r2) < gain(p, r1)`. -/
theorem gain_strictly_decreasing_in_distance (A r1 r2 : ℚ)
    (hA : 0 < A) (h1 : 0 < r1) (h12 : r1 < r2) :
    gainAtDistance A r2 < gainAtDistance A r1 := by
  unfold gainAtDistance
  exact div_lt_div_of_pos_left hA h1 h12

/-- C8.  A solve excludes every non-varying parameter from the optimization
vector passed to the minimizer (each entry of that vector is the value of a
varying parameter) and leaves its value unchanged by the solve, while the
full parameter vector assembled for simulation still contains the
non-varying parameter at its current value, for every candidate vector. -/
theorem fixed_parameter_frozen_during_solve (ps : List Param)
    (minimizer : List ℚ → List ℚ) (i : Nat) (p : Param)
    (hp : ps[i]? = some p) (hv : p.vary = false) :
    (solveModel minimizer ps)[i]? = some p ∧
    (∀ xs : List ℚ, (assemble ps xs)[i]? = some p.value) ∧
    (∀ v ∈ optVector ps, ∃ q ∈ ps, q.vary = true ∧ q.value = v) := by
  refine ⟨?_, ?_, optVector_mem ps⟩
  · exact writeBack_getElem_fixed ps _ i p hp hv
  · intro xs
    exact assemble_getElem_fixed ps xs i p hp hv

/-- C9.  Structural errors fail immediately: adding a unit whose name
duplicates an existing unit's name is rejected, binding a series with an
unsorted or duplicate-containing time index is rejected, and constructing a
distance-scaled multi-stress unit without the required distances is
rejected; none of these inputs is silently corrected or accepted. -/
theorem structural_errors_fail_fast (m : List (String × SCUnit)) (name : String) (u : SCUnit)
    (idx : List Int) (vals : List ℚ) (stresses : List (Int → ℚ))
    (hdup : name ∈ m.map Prod.fst) (hbad : ¬ idx.Sorted (· < ·)) :
    addUnit m name u = Except.error StructuralError.duplicateName ∧
    bindSeries idx vals = Except.error StructuralError.badIndex ∧
    mkWellUnit stresses none = Except.error StructuralError.missingDistance := by
  refine ⟨?_, ?_, rfl⟩
  · simp [addUnit, hdup]
  · have hss : strictlySorted idx = false := by
      rcases Bool.eq_false_or_eq_true (strictlySorted idx) with ht | hf
      · exact absurd ((strictlySorted_iff_sorted idx).mp ht) hbad
      · exact hf
    simp [bindSeries, hss]

/-- C10.  For a single-stress contribution unit, the decreasing sign
convention (`up = false`) produces exactly the pointwise negation of the
increasing convention (`up = true`) for the same stress, block response and
timestamp: the up flag only flips the sign of the contribution. -/
theorem up_flag_only_flips_sign (stress : Int → ℚ) (block : List ℚ) (t : Int) :
    contributionUp false stress block t = - contributionUp true stress block t := by
  simp only [contributionUp, convolve, Bool.false_eq_true, if_false, if_true]
  rw [← Finset.sum_neg_distrib]
  exact Finset.sum_congr rfl (fun j hj => by ring)

/-- Witness for C1 at a concrete one-unit model: the returned value at
timestamp 1 of `simulate` over `[0, 1]` is the constant plus the unit's
contribution there. -/
theorem simulate_constant_plus_contributions_witness :
    (0 : Int) ≤ (1 : Int) ∧ (1 : Int) ≤ (1 : Int) ∧
      (2 : ℚ) = 1 + (([⟨fun t => (t : ℚ), 2⟩] : List SCUnit).map (fun u => u.contrib 1)).sum :=
  (simulate_constant_plus_contributions [⟨fun t => (t : ℚ), 2⟩] 1 0 1).1
    ((1 : Int), (2 : ℚ))
    (by norm_num [simulate, simulateAxis, timeAxis, maxCutoff, List.range_succ])

/-- Witness for C2 at `α = 1`, unit elapsed times, and residuals `[1, 2]`:
innovation 1 follows the AR(1) recurrence. -/
theorem noise_transform_formula_witness :
    (noiseTransform 1 (fun _ => 1) [(1 : ℝ), 2]).getD 1 0
      = ([(1 : ℝ), 2]).getD 1 0 - ([(1 : ℝ), 2]).getD 0 0 * Real.exp (-(1 : ℝ) / 1) :=
  (noise_transform_formula 1 (fun _ => 1) [(1 : ℝ), 2] (by norm_num)).2.2 1
    (by norm_num) (by decide)

/-- Witness for C3 on a concrete run with capacity 2: the first state of the
trajectory stays within the bounds. -/
theorem recharge_state_bounded_witness : 0 ≤ (3 / 2 : ℚ) ∧ (3 / 2 : ℚ) ≤ 2 :=
  recharge_state_bounded 2 (fun s => s / 2) 1 [1, 3] (by norm_num) (by norm_num)
    (by norm_num) (by decide) (3 / 2) (by norm_num [rechargeStates, clip])

/-- The exponential family with `A = 1`, `ρ = 1/2` as a concrete response
family. -/
def expFamilyExample : ResponseFamily :=
  expFamily 1 (1 / 2) (by norm_num) (by norm_num) (by norm_num) ⟨10, by norm_num⟩

/-- Witness for C4 at the concrete exponential response family with
`A = 1`, `ρ = 1/2`. -/
theorem step_response_gain_consistency_witness :
    (stepResponseF expFamilyExample).length = cutoffF expFamilyExample ∧
    (∀ j, j < cutoffF expFamilyExample →
      ¬ (|expFamilyExample.gain - expFamilyExample.step j|
          ≤ (1 - 999 / 1000) * |expFamilyExample.gain|)) ∧
    |(stepResponseF expFamilyExample).getD (cutoffF expFamilyExample - 1) 0
        - expFamilyExample.gain|
      ≤ (1 - 999 / 1000) * |expFamilyExample.gain| :=
  step_response_gain_consistency expFamilyExample
    ((Nat.find_pos expFamilyExample.reaches).mpr
      (by norm_num [expFamilyExample, expFamily, expStep, expGain]))

/-- Witness for C5 at `α = 1`, `Δt = 1`: the squared weight cancels the
AR(1) variance factor. -/
theorem noise_weight_unit_variance_witness :
    noiseWeight 1 1 ^ 2 * innovationVarianceFactor 1 1 = 1 :=
  (noise_weight_unit_variance 1 (fun _ => 1) (fun _ => 1) 1 0 (by norm_num)
    (by norm_num)).2.2

/-- Witness for C6 on two concrete wells: swapping them, and sorting them
closest-first, leaves the summed contribution unchanged. -/
theorem well_contribution_perm_invariant_witness :
    wellContribution (fun r => [r]) [((fun _ => 1), 5), ((fun _ => 2), 3)] 0
      = wellContribution (fun r => [r]) [((fun _ => 2), 3), ((fun _ => 1), 5)] 0 ∧
    wellContribution (fun r => [r])
        (List.insertionSort (fun a b => a.2 ≤ b.2) [((fun _ => 1), 5), ((fun _ => 2), 3)]) 0
      = wellContribution (fun r => [r]) [((fun _ => 1), 5), ((fun _ => 2), 3)] 0 :=
  well_contribution_perm_invariant (fun r => [r]) _ _ 0 (List.Perm.swap _ _ _)

/-- Witness for C7 at distances 1 and 2 with unit gain parameter. -/
theorem gain_strictly_decreasing_in_distance_witness :
    gainAtDistance 1 2 < gainAtDistance 1 1 :=
  gain_strictly_decreasing_in_distance 1 1 2 (by norm_num) (by norm_num) (by norm_num)

/-- Witness for C8 on a two-parameter table with the first parameter fixed:
the solve leaves the fixed parameter unchanged. -/
theorem fixed_parameter_frozen_during_solve_witness :
    (solveModel (fun _ => [5]) [⟨1, false⟩, ⟨2, true⟩])[0]? = some ⟨1, false⟩ :=
  (fixed_parameter_frozen_during_solve [⟨1, false⟩, ⟨2, true⟩] (fun _ => [5]) 0
    ⟨1, false⟩ rfl rfl).1

/-- Witness for C9 on concrete invalid inputs: a duplicate unit name, an
unsorted index and missing distances are each rejected. -/
theorem structural_errors_fail_fast_witness :
    addUnit [("a", ⟨fun _ => 0, 0⟩)] "a" ⟨fun _ => 0, 0⟩
        = Except.error StructuralError.duplicateName ∧
    bindSeries [1, 0] [] = Except.error StructuralError.badIndex ∧
    mkWellUnit [] none = Except.error StructuralError.missingDistance :=
  structural_errors_fail_fast [("a", ⟨fun _ => 0, 0⟩)] "a" ⟨fun _ => 0, 0⟩ [1, 0] [] []
    (by simp) (by decide)

end Pastas
